import Mathlib

/-!
Shallow embedding of the deferred-literal type-inference core of `src/main.py`
(types `Ty` and `T`, the AST, the `Env` state, `infer`, `infer_types`, `unify`
and `resolve`), together with theorems checking the specification's claims
about it.  Python's in-place mutation of `Env` and of each expression node's
`ty` slot is modelled by explicit state passing: the node slots live in the
`tys` map of `Env`, keyed by node id, and every insertion-ordered Python dict
is modelled by an association list with Python's update-in-place-or-append
semantics.  Assertion failures are modelled as `Except.error`.
-/

namespace TypeInference

section Dict

variable {α β : Type} [DecidableEq α]

/-- Lookup in an insertion-ordered association list (Python `d[k]` / `k in d`). -/
def dlookup (k : α) (m : List (α × β)) : Option β :=
  (m.find? (fun p => decide (p.1 = k))).map Prod.snd

/-- Python `d[k] = v`: replace the (unique) existing entry in place, else append. -/
def dinsert (k : α) (v : β) : List (α × β) → List (α × β)
  | [] => [(k, v)]
  | p :: m => if p.1 = k then (k, v) :: m else p :: dinsert k v m

/-- Python `d.pop(k)`: remove the entry with key `k`. -/
def derase (k : α) (m : List (α × β)) : List (α × β) :=
  m.filter (fun p => decide (¬ p.1 = k))

end Dict

/-- Concrete primitive type tag (class `Ty` in the source); equality is tag
equality, matching `Ty.__eq__`. -/
structure Ty where
  ty : String
deriving DecidableEq

/-- `Ty.is_int` from the source. -/
def Ty.is_int (t : Ty) : Bool :=
  match t.ty with
  | "i32" | "i64" => true
  | _ => false

/-- `Ty.is_float` from the source. -/
def Ty.is_float (t : Ty) : Bool :=
  match t.ty with
  | "f32" | "f64" => true
  | _ => false

/-- Inference type (class `T` and subclasses `Int`, `Float`, `Normal`).
`Int`/`Float` are placeholders carrying the origin node id; `Normal` wraps a
concrete type and, in the source, passes `-1` as its `node_id` to `T.__init__`. -/
inductive T where
  | Int (node_id : Nat)
  | Float (node_id : Nat)
  | Normal (ty : Ty)
deriving DecidableEq

/-- The `node_id` attribute of a `T` value; `Normal.__init__` stores `-1`. -/
def T.node_id : T → ℤ
  | .Int n => (n : ℤ)
  | .Float n => (n : ℤ)
  | .Normal _ => -1

/-- `T.__eq__` from the source: inference-type equality compares only the
`node_id` attribute (inherited unchanged by `Int`, `Float` and `Normal`). -/
def T.eq (a b : T) : Bool := a.node_id == b.node_id

/-- Predicate used in statements only: `Int` and `Float` are unresolved
placeholders, `Normal` is a resolved type. -/
def T.isPlaceholder : T → Bool
  | .Normal _ => false
  | _ => true

/-- Expression nodes. The source assigns node ids from a global counter at
construction; here the front end supplies them explicitly (they must be unique
within a tree, the stated collaborator obligation). The float literal's
numeric payload is never consulted by the core and is not modelled. -/
inductive Expr where
  | IntLit (node_id : Nat) (value : Int)
  | FloatLit (node_id : Nat)
  | Ident (node_id : Nat) (name : String)
  | Binary (node_id : Nat) (left right : Expr)
deriving DecidableEq

def Expr.node_id : Expr → Nat
  | .IntLit n _ => n
  | .FloatLit n => n
  | .Ident n _ => n
  | .Binary n _ _ => n

/-- Statements: `Binding` plus plain expression statements (in the source
every `Expr` is a `Stmt`; `infer_types` only matches `Binding` and silently
skips anything else). -/
inductive Stmt where
  | Binding (name : String) (ty : Option Ty) (init : Expr)
  | ExprStmt (e : Expr)
deriving DecidableEq

/-- Function: name, declared return type, statements, optional trailing
expression. -/
structure Fn where
  name : String
  ret_ty : Ty
  stmts : List Stmt
  last_expr : Option Expr
deriving DecidableEq

/-- The mutable inference state (`class Env`). The source also carries an
unused `parent` scope link that is never consulted; it is omitted. The `tys`
map holds each expression node's mutable `ty : Ty | None` slot, keyed by node
id (node ids are unique, so object identity coincides with id). -/
structure Env where
  bindings : List (String × T)
  binding_id : List (Nat × String)
  unresolved : List (Nat × T)
  exprs : List (Nat × Expr)
  paren_exprs : List (Nat × Nat)
  tys : List (Nat × Ty)
deriving DecidableEq

def Env.empty : Env := ⟨[], [], [], [], [], []⟩

/-- `Env.add_binding`. -/
def Env.add_binding (env : Env) (name : String) (ty : T) : Env :=
  { env with bindings := dinsert name ty env.bindings }

/-- `Env.find_ty`. -/
def Env.find_ty (env : Env) (name : String) : Option T :=
  dlookup name env.bindings

/-- `Env.pop_unres`. -/
def Env.pop_unres (env : Env) (id : Nat) : Env :=
  { env with unresolved := derase id env.unresolved }

/-- Line 177 of the source: `env.exprs[expr.node_id] = expr`. -/
def register (env : Env) (e : Expr) : Env :=
  { env with exprs := dinsert e.node_id e env.exprs }

/-- The shared tail of `infer` (source lines 212-218): a placeholder result is
recorded in the unresolved set under this node's id; a resolved result is
written directly into the node's type slot. -/
def inferPost (env : Env) (e : Expr) (ty : T) : Env × T :=
  match ty with
  | .Normal t => ({ env with tys := dinsert e.node_id t env.tys }, ty)
  | _ => ({ env with unresolved := dinsert e.node_id ty env.unresolved }, ty)

/-- The `unify` block for one snapshot entry whose placeholder matched: the
enclosing-binary propagation (source lines 229-239). Writes `expected` into
the parent's slot, removes the parent from the unresolved set, and does the
same for both of the parent's operands. -/
def parenPass (expected : Ty) (env : Env) (i : Nat) : Except String Env :=
  match dlookup i env.paren_exprs with
  | none => .ok env
  | some p_id =>
    match dlookup p_id env.exprs with
    | none => .error "KeyError"
    | some pexpr =>
      let env := { env with tys := dinsert pexpr.node_id expected env.tys }
      let env := env.pop_unres pexpr.node_id
      match pexpr with
      | .Binary _ left right =>
        let env := { env with tys := dinsert left.node_id expected env.tys }
        let env := env.pop_unres left.node_id
        let env := { env with tys := dinsert right.node_id expected env.tys }
        .ok (env.pop_unres right.node_id)
      | _ => .ok env

/-- Source lines 241-243: if the matched node is recorded as a binding origin,
rebind that name to the resolved type and drop the origin-index entry. -/
def bindingPass (expected : Ty) (env : Env) (i : Nat) : Env :=
  match dlookup i env.binding_id with
  | none => env
  | some name =>
    { env with bindings := dinsert name (T.Normal expected) env.bindings,
               binding_id := derase i env.binding_id }

/-- One iteration of the `unify` scan loop (source lines 225-244) for a
snapshot entry `p = (i, t)`: skipped unless `t == ty` under `T.__eq__`. -/
def unifyEntry (expected : Ty) (ty : T) (env : Env) (p : Nat × T) : Except String Env :=
  if T.eq p.2 ty then
    match dlookup p.1 env.exprs with
    | none => .error "KeyError"
    | some iexpr =>
      match parenPass expected env p.1 with
      | .error e => .error e
      | .ok env =>
        let env := { env with tys := dinsert iexpr.node_id expected env.tys }
        .ok ((bindingPass expected env p.1).pop_unres p.1)
  else .ok env

/-- The `unify` scan over a snapshot of the unresolved set
(`list(env.unresolved.items())`): pops during the scan do not shorten the
snapshot. -/
def unifyGo (expected : Ty) (ty : T) : Env → List (Nat × T) → Except String Env
  | env, [] => .ok env
  | env, p :: rest =>
    match unifyEntry expected ty env p with
    | .error e => .error e
    | .ok env => unifyGo expected ty env rest

/-- `unify(env, ty, expected)` (source lines 221-260). The class check of the
inner helper `f` and its scan; the error strings mirror the source's assert
messages (the placeholder-mismatch message says `int` for both classes, as in
the source). -/
def unify (env : Env) (ty : T) (expected : Ty) : Except String Env :=
  match ty with
  | .Int _ =>
    if expected.is_int then unifyGo expected ty env env.unresolved
    else .error ("type-error: expected `" ++ expected.ty ++ "` but got `int`")
  | .Float _ =>
    if expected.is_float then unifyGo expected ty env env.unresolved
    else .error ("type-error: expected `" ++ expected.ty ++ "` but got `int`")
  | .Normal t =>
    if t = expected then .ok env
    else .error ("type-error: expected `" ++ expected.ty ++ "` but got `" ++ t.ty ++ "`")

/-- The binary-operand combination of `infer` (source lines 194-209). When the
two operand types differ under `T.__eq__`, dispatch on their variants; note
that in the mixed `Normal`/placeholder cases the source sets `ty = t1`, the
*left* operand's type, in both orientations. The `Normal`/`Normal` branch
mirrors the source's `assert t01 == t02` (unreachable, because two `Normal`
values never differ under `T.__eq__`). The final catch-all mirrors
`assert False, f"{a}, {b}"`. -/
def combine (env : Env) (nid : Nat) (t1 t2 : T) : Except String (Env × T) :=
  if T.eq t1 t2 then .ok (env, t1)
  else
    match t1, t2 with
    | .Normal t01, .Normal t02 =>
      if t01 = t02 then .ok (env, t1)
      else .error ("type-error: binary op `" ++ t01.ty ++ "` and `" ++ t02.ty ++ "`")
    | .Int _, .Int _ => .ok (env, T.Int nid)
    | .Float _, .Float _ => .ok (env, T.Float nid)
    | .Normal t01, .Int e =>
      match unify env (T.Int e) t01 with
      | .error err => .error err
      | .ok env => .ok (env, T.Normal t01)
    | .Normal t01, .Float e =>
      match unify env (T.Float e) t01 with
      | .error err => .error err
      | .ok env => .ok (env, T.Normal t01)
    | .Int e, .Normal t01 =>
      match unify env (T.Int e) t01 with
      | .error err => .error err
      | .ok env => .ok (env, T.Int e)
    | .Float e, .Normal t01 =>
      match unify env (T.Float e) t01 with
      | .error err => .error err
      | .ok env => .ok (env, T.Float e)
    | a, b => .error ("assert-false: " ++ toString a.node_id ++ ", " ++ toString b.node_id)

/-- `infer(env, expr)` (source lines 176-218). Every call first registers the
node; an identifier records its binding-origin entry before the lookup. -/
def infer : Env → Expr → Except String (Env × T)
  | env, .IntLit nid v =>
    .ok (inferPost (register env (.IntLit nid v)) (.IntLit nid v) (T.Int nid))
  | env, .FloatLit nid =>
    .ok (inferPost (register env (.FloatLit nid)) (.FloatLit nid) (T.Float nid))
  | env, .Ident nid name =>
    let env := register env (.Ident nid name)
    let env := { env with binding_id := dinsert nid name env.binding_id }
    match env.find_ty name with
    | none => .error ("`" ++ name ++ "` not found in this scope")
    | some t => .ok (inferPost env (.Ident nid name) t)
  | env, .Binary nid l r =>
    let env := register env (.Binary nid l r)
    let env := { env with
      paren_exprs := dinsert r.node_id nid (dinsert l.node_id nid env.paren_exprs) }
    match infer env l with
    | .error e => .error e
    | .ok (env1, t1) =>
      match infer env1 r with
      | .error e => .error e
      | .ok (env2, t2) =>
        match combine env2 nid t1 t2 with
        | .error e => .error e
        | .ok (env3, ty) => .ok (inferPost env3 (.Binary nid l r) ty)

/-- One step of the statement loop in `infer_types` (source lines 162-170). -/
def processStmt (env : Env) : Stmt → Except String Env
  | .Binding name oty init =>
    match infer env init with
    | .error e => .error e
    | .ok (env, inf_ty) =>
      match oty with
      | some ty => unify (env.add_binding name (T.Normal ty)) inf_ty ty
      | none => .ok (env.add_binding name inf_ty)
  | .ExprStmt _ => .ok env

def processStmts (env : Env) : List Stmt → Except String Env
  | [] => .ok env
  | s :: rest =>
    match processStmt env s with
    | .error e => .error e
    | .ok env => processStmts env rest

/-- `infer_types(fn, env)` (source lines 161-173). -/
def infer_types (fn : Fn) (env : Env) : Except String Env :=
  match processStmts env fn.stmts with
  | .error e => .error e
  | .ok env =>
    match fn.last_expr with
    | none => .ok env
    | some e =>
      match infer env e with
      | .error err => .error err
      | .ok (env, ty) => unify env ty fn.ret_ty

/-- `resolve(env, id, ty)` (source lines 263-272), the defaulting pass for one
unresolved entry: integer placeholders default to `i64`, float placeholders to
`f64`; a `Normal` entry is an internal invariant violation (`assert False`). -/
def resolve (env : Env) (id : Nat) (ty : T) : Except String Env :=
  match ty with
  | .Int _ =>
    match dlookup id env.exprs with
    | none => .error "KeyError"
    | some expr => .ok { env with tys := dinsert expr.node_id (Ty.mk "i64") env.tys }
  | .Float _ =>
    match dlookup id env.exprs with
    | none => .error "KeyError"
    | some expr => .ok { env with tys := dinsert expr.node_id (Ty.mk "f64") env.tys }
  | .Normal _ => .error "assert-false: resolve on a resolved type"

/-- The defaulting pass invoked once per entry remaining in the unresolved set
(the loop `for node_id, ty in env.unresolved.items(): resolve(env, node_id, ty)`
at the caller). -/
def resolveAllGo (env : Env) : List (Nat × T) → Except String Env
  | [] => .ok env
  | p :: rest =>
    match resolve env p.1 p.2 with
    | .error e => .error e
    | .ok env => resolveAllGo env rest

def resolveAll (env : Env) : Except String Env :=
  resolveAllGo env env.unresolved

/-- Keys of an association list. -/
def keysOf {α β : Type} (m : List (α × β)) : List α := m.map Prod.fst

/-- Invariant relation between an environment and any environment obtained
from it by scan-internal mutations during a `unify` call with expected type
`expected`: the expression registry and the parent index are untouched, the
unresolved set only shrinks, every type-slot write writes `expected`, and a
name already bound to `Resolved(expected)` stays so. -/
structure ScanRel (expected : Ty) (env env' : Env) : Prop where
  exprs_eq : env'.exprs = env.exprs
  paren_eq : env'.paren_exprs = env.paren_exprs
  unres_sublist : env'.unresolved.Sublist env.unresolved
  tys_pres : ∀ j, dlookup j env.tys = some expected → dlookup j env'.tys = some expected
  tys_isSome : ∀ j, (dlookup j env.tys).isSome = true → (dlookup j env'.tys).isSome = true
  unres_none : ∀ j, dlookup j env.unresolved = none → dlookup j env'.unresolved = none
  bindings_pres : ∀ x, dlookup x env.bindings = some (T.Normal expected) →
    dlookup x env'.bindings = some (T.Normal expected)

/-- Per-entry precondition for a scan step that cannot hit a `KeyError`: the
node is registered in the expression registry and, when it has an
enclosing-binary parent, so is the parent. -/
def entryOk (env : Env) (i : Nat) : Prop :=
  (dlookup i env.exprs).isSome = true ∧
  ∀ q, dlookup i env.paren_exprs = some q → (dlookup q env.exprs).isSome = true

/-- Registry consistency: every entry of the expression registry is keyed by
its own node id (always true of environments built by `infer`). -/
def Env.regC (env : Env) : Prop := ∀ p ∈ env.exprs, Expr.node_id p.2 = p.1

def c9EnvB : Env := Env.empty.add_binding "a" (T.Int 7)

/-- The program `a: i32 = 20; b: f64 = 20.20; c = a + b` with trailing `a`,
node ids mirroring the source's construction order. -/
def fnMismatch : Fn :=
  ⟨"test", Ty.mk "i32",
   [.Binding "a" (some (Ty.mk "i32")) (.IntLit 1 20),
    .Binding "b" (some (Ty.mk "f64")) (.FloatLit 2),
    .Binding "c" none (.Binary 5 (.Ident 3 "a") (.Ident 4 "b"))],
   some (.Ident 6 "a")⟩

/-- The program of the repo's `test_last_binding_return`:
`a = 20; b = a; c = b + 50` with trailing `c`, node ids mirroring the source's
construction order. -/
def fnLastBindingReturn : Fn :=
  ⟨"test", Ty.mk "i32",
   [.Binding "a" none (.IntLit 1 20),
    .Binding "b" none (.Ident 2 "a"),
    .Binding "c" none (.Binary 5 (.Ident 3 "b") (.IntLit 4 50))],
   some (.Ident 6 "c")⟩

def envC5 : Env := Env.empty.add_binding "a" (T.Normal (Ty.mk "i32"))

def c10Env0 : Env := ⟨[], [], [(1, T.Int 1)], [(1, .IntLit 1 20)], [], []⟩

def c10Env1 : Env := ⟨[], [], [], [(1, .IntLit 1 20)], [], [(1, Ty.mk "i32")]⟩

def c7Env : Env :=
  ⟨[("a", T.Normal (Ty.mk "i32"))], [], [], [(1, .IntLit 1 20)], [], [(1, Ty.mk "i32")]⟩

/-- A node id is covered when its type slot has been written or it is still
recorded in the unresolved set; covered nodes are exactly those the
defaulting pass leaves with a non-empty slot. -/
def Env.covered (env : Env) (j : Nat) : Prop :=
  (dlookup j env.tys).isSome = true ∨ (dlookup j env.unresolved).isSome = true

/-- The default tag chosen by the defaulting pass for an unresolved entry. -/
def defaultTy : T → Ty
  | .Int _ => Ty.mk "i64"
  | .Float _ => Ty.mk "f64"
  | .Normal t => t

/-- The global invariant maintained by inference: the registry is consistent,
the unresolved set holds only placeholders of registered nodes with no
duplicate keys, and every registered node is covered — except the node ids in
`S`, the binary nodes currently being walked (a binary node is registered
before its operands are inferred). -/
structure Wf (env : Env) (S : List Nat) : Prop where
  reg : env.regC
  placeholders : ∀ p ∈ env.unresolved, T.isPlaceholder p.2 = true
  registered : ∀ p ∈ env.unresolved, (dlookup p.1 env.exprs).isSome = true
  nodup : (keysOf env.unresolved).Nodup
  coveredAll : ∀ p ∈ env.exprs, env.covered p.1 ∨ p.1 ∈ S

/-- The program `a = 20; d = 20.20` with trailing `a` and return type `i32`:
`a`'s chain is pinned by the return unification, `d`'s float placeholder is
left for the defaulting pass. -/
def c8Fn : Fn :=
  ⟨"t", Ty.mk "i32",
   [.Binding "a" none (.IntLit 1 20), .Binding "d" none (.FloatLit 2)],
   some (.Ident 3 "a")⟩

/-- The environment produced by inference on `c8Fn`. -/
def c8Env : Env :=
  ⟨[("a", T.Normal (Ty.mk "i32")), ("d", T.Float 2)], [], [(2, T.Float 2)],
   [(1, .IntLit 1 20), (2, .FloatLit 2), (3, .Ident 3 "a")], [],
   [(1, Ty.mk "i32"), (3, Ty.mk "i32")]⟩

/-- The last bound name of the chain `x0 = 20; x1 = x0; …`. -/
def lastName (x0 : String) : List String → String
  | [] => x0
  | x :: xs => lastName x xs

/-- The alias bindings `x_k = prev; x_{k+1} = x_k; …` whose identifier nodes
get ids `k, k+1, …`. -/
def aliasTail (prev : String) : List String → Nat → List Stmt
  | [], _ => []
  | x :: xs, k => Stmt.Binding x none (Expr.Ident k prev) :: aliasTail x xs (k + 1)

/-- The chain program `x0 = <int literal>; x1 = x0; …; xn = x_{n-1}` with
trailing expression `xn` and declared return type `C`. The literal is node
`0`, the identifier initializing `x_k` is node `k`, and the trailing
identifier is node `n + 1`. -/
def chainFn (x0 : String) (xs : List String) (C : Ty) : Fn :=
  ⟨"test", C,
   Stmt.Binding x0 none (Expr.IntLit 0 20) :: aliasTail x0 xs 1,
   some (Expr.Ident (xs.length + 1) (lastName x0 xs))⟩

/-- The unresolved set of a partially processed chain: nodes `0, …, k-1`, all
sharing the literal's placeholder `Int 0`. -/
def idList (k : Nat) : List (Nat × T) := (List.range k).map (fun i => (i, T.Int 0))

/-- The environment state after inferring `name = <ident k -> prev>` when
`prev` is currently bound to the chain placeholder. -/
def identStepEnv (env : Env) (k : Nat) (prev x : String) : Env :=
  { env with exprs := dinsert k (Expr.Ident k prev) env.exprs,
             binding_id := dinsert k prev env.binding_id,
             unresolved := dinsert k (T.Int 0) env.unresolved,
             bindings := dinsert x (T.Int 0) env.bindings }

/-! Association-list lemmas. -/

section DictLemmas

variable {α β : Type} [DecidableEq α]

theorem dlookup_cons (k : α) (p : α × β) (m : List (α × β)) :
    dlookup k (p :: m) = if p.1 = k then some p.2 else dlookup k m := by
  by_cases h : p.1 = k <;> simp [dlookup, List.find?_cons, h]

theorem dlookup_dinsert_self (k : α) (v : β) (m : List (α × β)) :
    dlookup k (dinsert k v m) = some v := by
  induction m with
  | nil => simp [dinsert, dlookup_cons]
  | cons p m ih =>
    by_cases h : p.1 = k
    · simp [dinsert, h, dlookup_cons]
    · simp [dinsert, h, dlookup_cons, ih]

theorem dlookup_dinsert_ne {j k : α} (h : j ≠ k) (v : β) (m : List (α × β)) :
    dlookup j (dinsert k v m) = dlookup j m := by
  have hkj : ¬ (k = j) := fun hh => h hh.symm
  induction m with
  | nil => simp [dinsert, dlookup_cons, hkj, dlookup]
  | cons p m ih =>
    by_cases hp : p.1 = k
    · have hpj : ¬ (p.1 = j) := by rw [hp]; exact hkj
      simp only [dinsert, hp, if_pos]
      rw [dlookup_cons, dlookup_cons]
      simp [hkj, hpj]
    · simp only [dinsert, hp, if_neg, not_false_iff]
      rw [dlookup_cons, dlookup_cons, ih]

theorem mem_dinsert {q : α × β} {k : α} {v : β} {m : List (α × β)} :
    q ∈ dinsert k v m → q = (k, v) ∨ q ∈ m := by
  induction m with
  | nil => simp [dinsert]
  | cons p m ih =>
    by_cases hp : p.1 = k
    · simp only [dinsert, hp, if_pos, List.mem_cons]
      rintro (h | h) <;> simp [h]
    · simp only [dinsert, hp, if_neg, not_false_iff, List.mem_cons]
      rintro (h | h)
      · simp [h]
      · rcases ih h with h' | h' <;> simp [h']

theorem dinsert_append {k : α} {m : List (α × β)} (h : ∀ p ∈ m, p.1 ≠ k) (v : β) :
    dinsert k v m = m ++ [(k, v)] := by
  induction m with
  | nil => simp [dinsert]
  | cons p m ih =>
    have hp : p.1 ≠ k := h p (by simp)
    simp only [dinsert, hp, if_neg, not_false_iff, List.cons_append, List.cons.injEq, true_and]
    exact ih (fun q hq => h q (by simp [hq]))

theorem dlookup_isSome_dinsert {j : α} {m : List (α × β)} (k : α) (v : β)
    (h : (dlookup j m).isSome = true) : (dlookup j (dinsert k v m)).isSome = true := by
  by_cases hjk : j = k
  · subst hjk; simp [dlookup_dinsert_self]
  · rwa [dlookup_dinsert_ne hjk]

theorem mem_of_dlookup {k : α} {v : β} {m : List (α × β)} (h : dlookup k m = some v) :
    (k, v) ∈ m := by
  induction m with
  | nil => simp [dlookup] at h
  | cons p m ih =>
    rw [dlookup_cons] at h
    by_cases hp : p.1 = k
    · rw [if_pos hp] at h
      cases p with
      | mk a b =>
        simp only [Option.some.injEq] at h
        simp only at hp
        subst hp
        subst h
        exact List.mem_cons_self _ _
    · rw [if_neg hp] at h
      exact List.mem_cons_of_mem _ (ih h)

theorem derase_cons (k : α) (p : α × β) (m : List (α × β)) :
    derase k (p :: m) = if p.1 = k then derase k m else p :: derase k m := by
  by_cases hp : p.1 = k <;> simp [derase, List.filter_cons, hp]

theorem dlookup_derase_ne {j k : α} (h : j ≠ k) (m : List (α × β)) :
    dlookup j (derase k m) = dlookup j m := by
  induction m with
  | nil => rfl
  | cons p m ih =>
    rw [derase_cons]
    by_cases hp : p.1 = k
    · have hpj : ¬ (p.1 = j) := by rw [hp]; exact fun hh => h hh.symm
      rw [if_pos hp, dlookup_cons, if_neg hpj]
      exact ih
    · rw [if_neg hp, dlookup_cons, dlookup_cons, ih]

theorem dlookup_derase_self (k : α) (m : List (α × β)) :
    dlookup k (derase k m) = none := by
  induction m with
  | nil => rfl
  | cons p m ih =>
    rw [derase_cons]
    by_cases hp : p.1 = k
    · rw [if_pos hp]; exact ih
    · rw [if_neg hp, dlookup_cons, if_neg hp]; exact ih

theorem derase_sublist (k : α) (m : List (α × β)) : (derase k m).Sublist m :=
  List.filter_sublist m

theorem mem_of_mem_derase {q : α × β} {k : α} {m : List (α × β)} (h : q ∈ derase k m) :
    q ∈ m := (derase_sublist k m).mem h

theorem keysOf_dinsert_mem {j k : α} {v : β} {m : List (α × β)}
    (h : j ∈ keysOf (dinsert k v m)) : j ∈ keysOf m ∨ j = k := by
  induction m with
  | nil => simpa [dinsert, keysOf] using h
  | cons p m ih =>
    by_cases hp : p.1 = k
    · simp only [dinsert, hp, if_pos, keysOf, List.map_cons, List.mem_cons] at h
      rcases h with h | h
      · right; exact h
      · left; simp [keysOf, List.mem_cons]; right
        simpa [keysOf] using h
    · simp only [dinsert, hp, if_neg, not_false_iff, keysOf, List.map_cons, List.mem_cons] at h
      rcases h with h | h
      · left; simp [keysOf, h]
      · rcases ih (by simpa [keysOf] using h) with h' | h'
        · left; simp [keysOf, List.mem_cons]; right; simpa [keysOf] using h'
        · right; exact h'

theorem nodup_keysOf_dinsert {k : α} {v : β} {m : List (α × β)}
    (h : (keysOf m).Nodup) : (keysOf (dinsert k v m)).Nodup := by
  induction m with
  | nil => simp [dinsert, keysOf]
  | cons p m ih =>
    simp only [keysOf, List.map_cons, List.nodup_cons] at h
    by_cases hp : p.1 = k
    · simp only [dinsert, hp, if_pos, keysOf, List.map_cons, List.nodup_cons]
      exact ⟨hp ▸ h.1, h.2⟩
    · simp only [dinsert, hp, if_neg, not_false_iff, keysOf, List.map_cons, List.nodup_cons]
      refine ⟨fun hmem => ?_, ih h.2⟩
      rcases keysOf_dinsert_mem (by simpa [keysOf] using hmem) with h' | h'
      · exact h.1 h'
      · exact hp h'

theorem nodup_keysOf_derase {k : α} {m : List (α × β)}
    (h : (keysOf m).Nodup) : (keysOf (derase k m)).Nodup :=
  ((derase_sublist k m).map Prod.fst).nodup h

theorem dlookup_dinsert_pres {j k : α} {v : β} {m : List (α × β)}
    (h : dlookup j m = some v) : dlookup j (dinsert k v m) = some v := by
  by_cases hjk : j = k
  · subst hjk; simp [dlookup_dinsert_self]
  · rwa [dlookup_dinsert_ne hjk]

theorem dlookup_dinsert_self_isSome (k : α) (v : β)
    (m : List (α × β)) : (dlookup k (dinsert k v m)).isSome = true := by
  rw [dlookup_dinsert_self]
  rfl

theorem dlookup_derase_none {j k : α} {m : List (α × β)}
    (h : dlookup j m = none) : dlookup j (derase k m) = none := by
  by_cases hjk : j = k
  · subst hjk; exact dlookup_derase_self _ m
  · rwa [dlookup_derase_ne hjk]

end DictLemmas

/-! Lemmas about the `unify` scan. -/

theorem ScanRel.selfRel {expected : Ty} {env : Env} : ScanRel expected env env :=
  ⟨Eq.refl _, Eq.refl _, List.Sublist.refl _, fun _ h => h, fun _ h => h, fun _ h => h,
   fun _ h => h⟩

theorem ScanRel.trans {expected : Ty} {e1 e2 e3 : Env}
    (h12 : ScanRel expected e1 e2) (h23 : ScanRel expected e2 e3) :
    ScanRel expected e1 e3 :=
  ⟨h23.exprs_eq.trans h12.exprs_eq, h23.paren_eq.trans h12.paren_eq,
   h23.unres_sublist.trans h12.unres_sublist,
   fun j h => h23.tys_pres j (h12.tys_pres j h),
   fun j h => h23.tys_isSome j (h12.tys_isSome j h),
   fun j h => h23.unres_none j (h12.unres_none j h),
   fun x h => h23.bindings_pres x (h12.bindings_pres x h)⟩

theorem ScanRel.tysInsertStep {expected : Ty} {env : Env} (j : Nat) :
    ScanRel expected env { env with tys := dinsert j expected env.tys } :=
  ⟨Eq.refl _, Eq.refl _, List.Sublist.refl _, fun _ h => dlookup_dinsert_pres h,
   fun _ h => dlookup_isSome_dinsert _ _ h, fun _ h => h, fun _ h => h⟩

theorem ScanRel.popStep {expected : Ty} {env : Env} (i : Nat) :
    ScanRel expected env (env.pop_unres i) :=
  ⟨Eq.refl _, Eq.refl _, derase_sublist _ _, fun _ h => h, fun _ h => h,
   fun _ h => dlookup_derase_none h, fun _ h => h⟩

theorem ScanRel.bindingStep {expected : Ty} {env : Env} (i : Nat) :
    ScanRel expected env (bindingPass expected env i) := by
  unfold bindingPass
  split
  · exact ScanRel.selfRel
  · exact ⟨Eq.refl _, Eq.refl _, List.Sublist.refl _, fun _ h => h, fun _ h => h,
      fun _ h => h, fun _ h => dlookup_dinsert_pres h⟩

theorem parenPass_scanRel {expected : Ty} {env env' : Env} {i : Nat}
    (h : parenPass expected env i = .ok env') : ScanRel expected env env' := by
  unfold parenPass at h
  split at h
  · cases h; exact ScanRel.selfRel
  · split at h
    · cases h
    · split at h
      · cases h
        exact (((((ScanRel.tysInsertStep _).trans (ScanRel.popStep _)).trans
          (ScanRel.tysInsertStep _)).trans (ScanRel.popStep _)).trans
          (ScanRel.tysInsertStep _)).trans (ScanRel.popStep _)
      · cases h
        exact (ScanRel.tysInsertStep _).trans (ScanRel.popStep _)

theorem unifyEntry_scanRel {expected : Ty} {ty : T} {env env' : Env} {p : Nat × T}
    (h : unifyEntry expected ty env p = .ok env') : ScanRel expected env env' := by
  unfold unifyEntry at h
  split at h
  · split at h
    · cases h
    · split at h
      · cases h
      · cases h
        rename_i heq iexpr hie env1 hpp
        exact ((parenPass_scanRel hpp).trans (ScanRel.tysInsertStep _)).trans
          ((ScanRel.bindingStep _).trans (ScanRel.popStep _))
  · cases h; exact ScanRel.selfRel

theorem unifyGo_scanRel {expected : Ty} {ty : T} {env env' : Env} {l : List (Nat × T)}
    (h : unifyGo expected ty env l = .ok env') : ScanRel expected env env' := by
  induction l generalizing env with
  | nil => cases h; exact ScanRel.selfRel
  | cons p rest ih =>
    unfold unifyGo at h
    split at h
    · cases h
    · rename_i env1 hstep
      exact (unifyEntry_scanRel hstep).trans (ih h)

theorem dlookup_isSome_of_mem {α β : Type} [DecidableEq α] {q : α × β} {m : List (α × β)}
    (h : q ∈ m) : (dlookup q.1 m).isSome = true := by
  induction m with
  | nil => simp at h
  | cons p m ih =>
    rw [dlookup_cons]
    by_cases hp : p.1 = q.1
    · simp [hp]
    · rcases List.mem_cons.mp h with h' | h'
      · subst h'
        exact absurd (Eq.refl _) hp
      · simp only [hp, if_neg, not_false_iff]
        exact ih h'

theorem entryOk_of_scanRel {expected : Ty} {env env' : Env}
    (r : ScanRel expected env env') {i : Nat} (h : entryOk env i) : entryOk env' i := by
  unfold entryOk at h ⊢
  rw [r.exprs_eq, r.paren_eq]
  exact h

theorem parenPass_ok_of (expected : Ty) {env : Env} {i : Nat} (h : entryOk env i) :
    ∃ env', parenPass expected env i = .ok env' := by
  cases hres : parenPass expected env i with
  | ok e => exact ⟨e, rfl⟩
  | error e =>
    exfalso
    unfold parenPass at hres
    split at hres
    · cases hres
    · split at hres
      · rename_i p_id hpar hx hpe
        have hq := h.2 p_id hpar
        rw [hpe] at hq
        simp at hq
      · split at hres <;> cases hres

theorem unifyEntry_ok_of (expected : Ty) (ty : T) {env : Env} {p : Nat × T}
    (h : entryOk env p.1) : ∃ env', unifyEntry expected ty env p = .ok env' := by
  cases hres : unifyEntry expected ty env p with
  | ok e => exact ⟨e, rfl⟩
  | error e =>
    exfalso
    unfold unifyEntry at hres
    split at hres
    · split at hres
      · rename_i hie
        have h1 := h.1
        rw [hie] at h1
        simp at h1
      · split at hres
        · rename_i hpp
          obtain ⟨e', he'⟩ := parenPass_ok_of expected h
          rw [he'] at hpp
          cases hpp
        · cases hres
    · cases hres

theorem unifyGo_ok_of (expected : Ty) (ty : T) {l : List (Nat × T)} :
    ∀ (env : Env), (∀ p ∈ l, entryOk env p.1) →
    ∃ env', unifyGo expected ty env l = .ok env' := by
  induction l with
  | nil => exact fun env _ => ⟨env, rfl⟩
  | cons p rest ih =>
    intro env h
    obtain ⟨env1, h1⟩ := unifyEntry_ok_of expected ty
      (h p (List.mem_cons_self ..))
    have r := unifyEntry_scanRel h1
    obtain ⟨env2, h2⟩ := ih env1 (fun q hq =>
      entryOk_of_scanRel r (h q (List.mem_cons_of_mem _ hq)))
    refine ⟨env2, ?_⟩
    unfold unifyGo
    rw [h1]
    exact h2

theorem regC_lookup {env : Env} (h : env.regC) {i : Nat} {e : Expr}
    (hl : dlookup i env.exprs = some e) : e.node_id = i :=
  h (i, e) (mem_of_dlookup hl)

theorem regC_of_scanRel {expected : Ty} {env env' : Env}
    (r : ScanRel expected env env') (h : env.regC) : env'.regC := by
  unfold Env.regC at h ⊢
  rw [r.exprs_eq]
  exact h

theorem bindingPass_tys (expected : Ty) (env : Env) (i : Nat) :
    (bindingPass expected env i).tys = env.tys := by
  unfold bindingPass; split <;> rfl

theorem bindingPass_unres (expected : Ty) (env : Env) (i : Nat) :
    (bindingPass expected env i).unresolved = env.unresolved := by
  unfold bindingPass; split <;> rfl

theorem pop_unres_tys (env : Env) (i : Nat) : (env.pop_unres i).tys = env.tys := rfl

theorem pop_unres_unres (env : Env) (i : Nat) :
    (env.pop_unres i).unresolved = derase i env.unresolved := rfl

/-- A successful scan step on a matched entry leaves `expected` in the
entry's node's type slot. -/
theorem unifyEntry_writes {expected : Ty} {ty : T} {env env' : Env} {p : Nat × T}
    (hreg : env.regC) (h : unifyEntry expected ty env p = .ok env')
    (hmatch : T.eq p.2 ty = true) : dlookup p.1 env'.tys = some expected := by
  unfold unifyEntry at h
  split at h
  · split at h
    · cases h
    · split at h
      · cases h
      · cases h
        rename_i iexpr hie hx env1 hpp
        have hnid : iexpr.node_id = p.1 := regC_lookup hreg hie
        rw [pop_unres_tys, bindingPass_tys]
        show dlookup p.1 (dinsert iexpr.node_id expected env1.tys) = some expected
        rw [hnid]
        exact dlookup_dinsert_self ..
  · rename_i hfalse
    exact absurd hmatch hfalse

/-- A successful scan step on a matched entry removes it from the unresolved
set. -/
theorem unifyEntry_removes {expected : Ty} {ty : T} {env env' : Env} {p : Nat × T}
    (h : unifyEntry expected ty env p = .ok env') (hmatch : T.eq p.2 ty = true) :
    dlookup p.1 env'.unresolved = none := by
  unfold unifyEntry at h
  split at h
  · split at h
    · cases h
    · split at h
      · cases h
      · cases h
        show dlookup p.1 (derase p.1 (bindingPass expected _ p.1).unresolved) = none
        exact dlookup_derase_self ..
  · rename_i hfalse
    exact absurd hmatch hfalse

theorem unifyEntry_skip {expected : Ty} {ty : T} {env : Env} {p : Nat × T}
    (h : T.eq p.2 ty = false) : unifyEntry expected ty env p = .ok env := by
  unfold unifyEntry
  rw [h]
  simp

/-- A successful scan writes `expected` into the slot of every matched entry. -/
theorem unifyGo_writes {expected : Ty} {ty : T} {l : List (Nat × T)} :
    ∀ {env env' : Env}, env.regC → unifyGo expected ty env l = .ok env' →
    ∀ p ∈ l, T.eq p.2 ty = true → dlookup p.1 env'.tys = some expected := by
  induction l with
  | nil => intro env env' _ _ p hp; simp at hp
  | cons q rest ih =>
    intro env env' hreg h p hp hmatch
    unfold unifyGo at h
    split at h
    · cases h
    · rename_i env1 hstep
      rcases List.mem_cons.mp hp with h' | h'
      · subst h'
        exact (unifyGo_scanRel h).tys_pres _ (unifyEntry_writes hreg hstep hmatch)
      · exact ih (regC_of_scanRel (unifyEntry_scanRel hstep) hreg) h p h' hmatch

/-- A successful scan removes every matched entry from the unresolved set. -/
theorem unifyGo_removes {expected : Ty} {ty : T} {l : List (Nat × T)} :
    ∀ {env env' : Env}, unifyGo expected ty env l = .ok env' →
    ∀ p ∈ l, T.eq p.2 ty = true → dlookup p.1 env'.unresolved = none := by
  induction l with
  | nil => intro env env' _ p hp; simp at hp
  | cons q rest ih =>
    intro env env' h p hp hmatch
    unfold unifyGo at h
    split at h
    · cases h
    · rename_i env1 hstep
      rcases List.mem_cons.mp hp with h' | h'
      · subst h'
        exact (unifyGo_scanRel h).unres_none _ (unifyEntry_removes hstep hmatch)
      · exact ih h p h' hmatch

/-- A scan over entries none of which match leaves the environment unchanged. -/
theorem unifyGo_skip {expected : Ty} {ty : T} {l : List (Nat × T)} :
    ∀ {env : Env}, (∀ p ∈ l, T.eq p.2 ty = false) →
    unifyGo expected ty env l = .ok env := by
  induction l with
  | nil => exact fun _ => rfl
  | cons q rest ih =>
    intro env h
    unfold unifyGo
    rw [unifyEntry_skip (h q (List.mem_cons_self ..))]
    exact ih (fun p hp => h p (List.mem_cons_of_mem _ hp))

/-- A successful `unify` relates its input and output environments by
`ScanRel` with its own expected type. -/
theorem unify_scanRel {env env' : Env} {ty : T} {expected : Ty}
    (h : unify env ty expected = .ok env') : ScanRel expected env env' := by
  unfold unify at h
  split at h
  · split at h
    · exact unifyGo_scanRel h
    · cases h
  · split at h
    · exact unifyGo_scanRel h
    · cases h
  · split at h
    · cases h; exact ScanRel.selfRel
    · cases h

/-! Lemmas about `infer`. -/

theorem regC_congr {env env' : Env} (hx : env'.exprs = env.exprs) (h : env.regC) :
    env'.regC := by
  unfold Env.regC at h ⊢
  rw [hx]
  exact h

theorem regC_register {env : Env} (h : env.regC) (e : Expr) : (register env e).regC := by
  intro p hp
  rcases mem_dinsert hp with h' | h'
  · rw [h']
  · exact h p h'

theorem inferPost_snd (env : Env) (e : Expr) (ty : T) : (inferPost env e ty).2 = ty := by
  cases ty <;> rfl

theorem inferPost_exprs (env : Env) (e : Expr) (ty : T) :
    (inferPost env e ty).1.exprs = env.exprs := by
  cases ty <;> rfl

theorem inferPost_bindings (env : Env) (e : Expr) (ty : T) :
    (inferPost env e ty).1.bindings = env.bindings := by
  cases ty <;> rfl

/-- A characterization of `combine`'s output environment: it is either the
input environment unchanged or the result of one `unify` call on it. -/
theorem combine_env {env : Env} {nid : Nat} {t1 t2 : T} {r : Env × T}
    (h : combine env nid t1 t2 = .ok r) :
    r.1 = env ∨ ∃ p c, unify env p c = .ok r.1 := by
  unfold combine at h
  split at h
  · cases h; left; rfl
  · split at h
    · split at h
      · cases h; left; rfl
      · cases h
    · cases h; left; rfl
    · cases h; left; rfl
    · split at h
      · cases h
      · rename_i henv
        cases h
        right
        exact ⟨_, _, henv⟩
    · split at h
      · cases h
      · rename_i henv
        cases h
        right
        exact ⟨_, _, henv⟩
    · split at h
      · cases h
      · rename_i henv
        cases h
        right
        exact ⟨_, _, henv⟩
    · split at h
      · cases h
      · rename_i henv
        cases h
        right
        exact ⟨_, _, henv⟩
    · cases h

theorem infer_regC {e : Expr} : ∀ {env : Env} {r : Env × T},
    infer env e = .ok r → env.regC → r.1.regC := by
  induction e with
  | IntLit nid v =>
    intro env r h hreg
    cases h
    exact regC_congr (inferPost_exprs ..) (regC_register hreg _)
  | FloatLit nid =>
    intro env r h hreg
    cases h
    exact regC_congr (inferPost_exprs ..) (regC_register hreg _)
  | Ident nid name =>
    intro env r h hreg
    unfold infer at h
    simp only [] at h
    split at h
    · cases h
    · cases h
      exact regC_congr (inferPost_exprs ..) (regC_register hreg _)
  | Binary nid l rr ihl ihr =>
    intro env r h hreg
    unfold infer at h
    simp only [] at h
    split at h
    · cases h
    · rename_i env1 t1 h1
      split at h
      · cases h
      · rename_i env2 t2 h2
        split at h
        · cases h
        · rename_i env3 ty3 h3
          cases h
          have hreg1 : env1.regC := ihl h1 (regC_register hreg _)
          have hreg2 : env2.regC := ihr h2 hreg1
          have hreg3 : env3.regC := by
            rcases combine_env h3 with heq | ⟨p, c, hu⟩
            · exact regC_congr (by rw [show env3 = env2 from heq]) hreg2
            · exact regC_of_scanRel (unify_scanRel hu) hreg2
          exact regC_congr (inferPost_exprs ..) hreg3

/-- A successful `infer` that returns a placeholder has recorded that
placeholder in the unresolved set under the inferred node's id. -/
theorem infer_unres_of_placeholder {env : Env} {e : Expr} {r : Env × T}
    (h : infer env e = .ok r) (hp : r.2.isPlaceholder = true) :
    dlookup e.node_id r.1.unresolved = some r.2 := by
  cases e with
  | IntLit nid v =>
    cases h
    exact dlookup_dinsert_self ..
  | FloatLit nid =>
    cases h
    exact dlookup_dinsert_self ..
  | Ident nid name =>
    unfold infer at h
    simp only [] at h
    split at h
    · cases h
    · rename_i t0 hfind
      cases h
      cases t0 with
      | Normal ty0 => cases hp
      | Int a => exact dlookup_dinsert_self ..
      | Float a => exact dlookup_dinsert_self ..
  | Binary nid l rr =>
    unfold infer at h
    simp only [] at h
    split at h
    · cases h
    · rename_i env1 t1 h1
      split at h
      · cases h
      · rename_i env2 t2 h2
        split at h
        · cases h
        · rename_i env3 ty3 h3
          cases h
          cases ty3 with
          | Normal ty0 => cases hp
          | Int a => exact dlookup_dinsert_self ..
          | Float a => exact dlookup_dinsert_self ..

theorem T.eq_refl (t : T) : T.eq t t = true := by
  simp [T.eq]

theorem T.eq_normal_left (t : Ty) {p : T} (hp : p.isPlaceholder = true) :
    T.eq (T.Normal t) p = false := by
  cases p with
  | Normal u => cases hp
  | Int a =>
    rw [T.eq, beq_eq_false_iff_ne]
    show (-1 : ℤ) ≠ (a : ℤ)
    omega
  | Float a =>
    rw [T.eq, beq_eq_false_iff_ne]
    show (-1 : ℤ) ≠ (a : ℤ)
    omega

theorem T.eq_normal_right (t : Ty) {p : T} (hp : p.isPlaceholder = true) :
    T.eq p (T.Normal t) = false := by
  cases p with
  | Normal u => cases hp
  | Int a =>
    rw [T.eq, beq_eq_false_iff_ne]
    show (a : ℤ) ≠ (-1 : ℤ)
    omega
  | Float a =>
    rw [T.eq, beq_eq_false_iff_ne]
    show (a : ℤ) ≠ (-1 : ℤ)
    omega

/-! Claim theorems. -/

/-- C4 (counterexample): the claimed placeholder-equivalence invariant fails
on the code's `T.__eq__`: an integer-class and a float-class placeholder with
the same origin id compare equal even though their class tags differ, and two
`Resolved` values whose concrete types differ also compare equal. -/
theorem c4_counterexample :
    T.eq (T.Int 5) (T.Float 5) = true ∧
    T.isPlaceholder (T.Int 5) = true ∧ T.isPlaceholder (T.Float 5) = true ∧
    T.eq (T.Normal (Ty.mk "i32")) (T.Normal (Ty.mk "f64")) = true ∧
    Ty.mk "i32" ≠ Ty.mk "f64" := by
  refine ⟨rfl, rfl, rfl, rfl, ?_⟩
  decide

/-- C4 (amended): inference-type equality is node-id equality and nothing
else. Placeholders with the same origin id are "the same" regardless of class
tag; any two `Resolved` values are "the same" regardless of concrete type
(both carry node id `-1`); a `Resolved` value is never equal to a placeholder
(placeholder origin ids are nonnegative). -/
theorem c4_amended :
    (∀ i j : Nat, T.eq (T.Int i) (T.Int j) = true ↔ i = j) ∧
    (∀ i j : Nat, T.eq (T.Float i) (T.Float j) = true ↔ i = j) ∧
    (∀ i j : Nat, T.eq (T.Int i) (T.Float j) = true ↔ i = j) ∧
    (∀ t u : Ty, T.eq (T.Normal t) (T.Normal u) = true) ∧
    (∀ (i : Nat) (t : Ty), T.eq (T.Int i) (T.Normal t) = false ∧
      T.eq (T.Float i) (T.Normal t) = false) := by
  refine ⟨?_, ?_, ?_, ?_, ?_⟩
  · intro i j
    simp [T.eq, T.node_id]
  · intro i j
    simp [T.eq, T.node_id]
  · intro i j
    simp [T.eq, T.node_id]
  · intro t u
    rfl
  · intro i t
    exact ⟨T.eq_normal_right t rfl, T.eq_normal_right t rfl⟩

/-- C9: inferring an identifier fails with the name-resolution error, which
reports the offending name, exactly when the name has no current binding;
a bound name's current inference type is returned unchanged, with no error. -/
theorem c9_ident_lookup (env : Env) (nid : Nat) (name : String) :
    (env.find_ty name = none →
      infer env (.Ident nid name) =
        .error ("`" ++ name ++ "` not found in this scope")) ∧
    (∀ t, env.find_ty name = some t →
      ∃ env', infer env (.Ident nid name) = .ok (env', t)) := by
  constructor
  · intro hnone
    unfold infer
    simp only []
    rw [show Env.find_ty
        { register env (.Ident nid name) with
          binding_id := dinsert nid name (register env (.Ident nid name)).binding_id }
        name = env.find_ty name from rfl, hnone]
  · intro t hsome
    unfold infer
    simp only []
    rw [show Env.find_ty
        { register env (.Ident nid name) with
          binding_id := dinsert nid name (register env (.Ident nid name)).binding_id }
        name = env.find_ty name from rfl, hsome]
    cases t with
    | Int a => exact ⟨_, rfl⟩
    | Float a => exact ⟨_, rfl⟩
    | Normal u => exact ⟨_, rfl⟩

/-- C9 (witness): both branches of `c9_ident_lookup` at concrete inputs. -/
theorem c9_witness :
    (Env.empty.find_ty "x" = none ∧
      infer Env.empty (.Ident 1 "x") =
        .error ("`" ++ "x" ++ "` not found in this scope")) ∧
    (c9EnvB.find_ty "a" = some (T.Int 7) ∧
      ∃ env', infer c9EnvB (.Ident 2 "a") = .ok (env', T.Int 7)) :=
  ⟨⟨rfl, (c9_ident_lookup Env.empty 1 "x").1 rfl⟩,
   ⟨rfl, (c9_ident_lookup c9EnvB 2 "a").2 (T.Int 7) rfl⟩⟩

/-- C3 (code bug): a binary operation whose operands infer to `Resolved(i32)`
and `Resolved(f64)` raises no type-mismatch error. Because `T.__eq__` compares
only node ids and every `Normal` carries node id `-1`, the source's guard
`t1 != t2` is false for any two `Resolved` operands, so the mismatch assert on
line 197 is unreachable; inference succeeds and silently gives the binary node
the left operand's type `i32`. -/
theorem c3_resolved_mismatch_bug :
    (infer_types fnMismatch Env.empty).toOption.map
      (fun env => (dlookup 3 env.tys, dlookup 4 env.tys, dlookup 5 env.tys)) =
      some (some (Ty.mk "i32"), some (Ty.mk "f64"), some (Ty.mk "i32")) := by
  rfl

/-- C2 (code bug): unifying the whole binary expression's own placeholder
(via the trailing `c` against return type `i32`) writes `i32` only into the
binary node (node 5) and the trailing identifier (node 6); the operands
(nodes 3 and 4) and the alias chain behind them (nodes 1 and 2) stay
untyped and unresolved. Propagation runs only child-to-parent through the
enclosing-binary index, never parent-to-child, contradicting the claim and the
repo's own `test_last_binding_return`, which asserts `i32` on every node. -/
theorem c2_binary_parent_propagation_bug :
    (infer_types fnLastBindingReturn Env.empty).toOption.map
      (fun env => (dlookup 1 env.tys, dlookup 2 env.tys, dlookup 3 env.tys,
        dlookup 4 env.tys, dlookup 5 env.tys, dlookup 6 env.tys)) =
      some (none, none, none, none, some (Ty.mk "i32"), some (Ty.mk "i32")) := by
  rfl

/-- C5 (counterexample): with the Resolved operand on the right, `infer` on
`Binary(IntLit 5, Ident a)` (where `a` is bound to `Resolved(i32)`) returns
the placeholder `Int 1` as the binary node's inference type, not the Resolved
type, so "the binary node's resulting inference type is the Resolved type,
regardless of which operand was the Resolved one" is false. -/
theorem c5_counterexample :
    (infer envC5 (.Binary 3 (.IntLit 1 5) (.Ident 2 "a"))).toOption.map
      (fun p => p.2) = some (T.Int 1) ∧
    (T.Int 1).isPlaceholder = true ∧ (T.Int 1) ≠ T.Normal (Ty.mk "i32") := by
  refine ⟨rfl, rfl, ?_⟩
  intro h
  cases h

/-- C5 (amended): in a mixed Resolved/placeholder binary combination the
placeholder is unified against the Resolved type's concrete type in both
orientations, but the resulting inference type is the *left* operand's
inferred type: the Resolved type when the Resolved operand is on the left,
and the (just pinned) placeholder itself when the Resolved operand is on the
right. -/
theorem c5_amended (env : Env) (nid : Nat) (t01 : Ty) (p : T)
    (hp : p.isPlaceholder = true) :
    combine env nid (T.Normal t01) p =
      (unify env p t01).map (fun e => (e, T.Normal t01)) ∧
    combine env nid p (T.Normal t01) =
      (unify env p t01).map (fun e => (e, p)) := by
  cases p with
  | Normal u => cases hp
  | Int a =>
    constructor
    · unfold combine
      rw [T.eq_normal_left t01 hp]
      simp only [Bool.false_eq_true, if_neg, not_false_iff]
      cases hu : unify env (T.Int a) t01 <;> simp [hu, Except.map]
    · unfold combine
      rw [T.eq_normal_right t01 hp]
      simp only [Bool.false_eq_true, if_neg, not_false_iff]
      cases hu : unify env (T.Int a) t01 <;> simp [hu, Except.map]
  | Float a =>
    constructor
    · unfold combine
      rw [T.eq_normal_left t01 hp]
      simp only [Bool.false_eq_true, if_neg, not_false_iff]
      cases hu : unify env (T.Float a) t01 <;> simp [hu, Except.map]
    · unfold combine
      rw [T.eq_normal_right t01 hp]
      simp only [Bool.false_eq_true, if_neg, not_false_iff]
      cases hu : unify env (T.Float a) t01 <;> simp [hu, Except.map]

/-- C5 (witness for the amended claim): the amended statement applied at a
concrete mixed combination. -/
theorem c5_amended_witness :
    (T.Int 1).isPlaceholder = true ∧
    (combine Env.empty 9 (T.Normal (Ty.mk "i32")) (T.Int 1) =
      (unify Env.empty (T.Int 1) (Ty.mk "i32")).map
        (fun e => (e, T.Normal (Ty.mk "i32"))) ∧
     combine Env.empty 9 (T.Int 1) (T.Normal (Ty.mk "i32")) =
      (unify Env.empty (T.Int 1) (Ty.mk "i32")).map (fun e => (e, T.Int 1))) :=
  ⟨rfl, c5_amended Env.empty 9 (Ty.mk "i32") (T.Int 1) rfl⟩

/-- C6: with every unresolved entry's node (and its enclosing-binary parent,
when present) registered in the expression registry — true of every
environment reachable by inference — `unify(env, T, expected)` fails exactly
when `T` is an integer-class placeholder and `expected` is not integer-class,
or `T` is a float-class placeholder and `expected` is not float-class, or `T`
is `Resolved(t)` with `t ≠ expected`; in every other case it succeeds. All of
these failures are the source's type-mismatch asserts: under the registration
hypothesis the scan itself cannot fail. -/
theorem c6_unify_mismatch_iff (env : Env) (ty : T) (expected : Ty)
    (hwf : ∀ p ∈ env.unresolved, entryOk env p.1) :
    (∃ e, unify env ty expected = .error e) ↔
      ((∃ a, ty = T.Int a ∧ expected.is_int = false) ∨
       (∃ a, ty = T.Float a ∧ expected.is_float = false) ∨
       (∃ t, ty = T.Normal t ∧ t ≠ expected)) := by
  constructor
  · rintro ⟨e, he⟩
    cases ty with
    | Int a =>
      simp only [unify] at he
      split at he
      · obtain ⟨env', h'⟩ := unifyGo_ok_of expected (T.Int a) env
          (fun p hp => hwf p hp)
        rw [h'] at he
        cases he
      · rename_i hfalse
        simp only [Bool.not_eq_true] at hfalse
        exact Or.inl ⟨a, rfl, hfalse⟩
    | Float a =>
      simp only [unify] at he
      split at he
      · obtain ⟨env', h'⟩ := unifyGo_ok_of expected (T.Float a) env
          (fun p hp => hwf p hp)
        rw [h'] at he
        cases he
      · rename_i hfalse
        simp only [Bool.not_eq_true] at hfalse
        exact Or.inr (Or.inl ⟨a, rfl, hfalse⟩)
    | Normal t =>
      simp only [unify] at he
      split at he
      · cases he
      · rename_i hne
        exact Or.inr (Or.inr ⟨t, rfl, hne⟩)
  · intro hcond
    rcases hcond with ⟨a, rfl, hfalse⟩ | ⟨a, rfl, hfalse⟩ | ⟨t, rfl, hne⟩
    · refine ⟨"type-error: expected `" ++ expected.ty ++ "` but got `int`", ?_⟩
      simp only [unify]
      rw [hfalse]
      simp
    · refine ⟨"type-error: expected `" ++ expected.ty ++ "` but got `int`", ?_⟩
      simp only [unify]
      rw [hfalse]
      simp
    · refine ⟨"type-error: expected `" ++ expected.ty ++ "` but got `" ++ t.ty ++ "`", ?_⟩
      simp only [unify]
      rw [if_neg hne]

/-- C6 (witness): the characterization applied at a concrete input: unifying
an integer placeholder against the float type `f64` in the empty environment
fails. -/
theorem c6_witness :
    (∃ e, unify Env.empty (T.Int 3) (Ty.mk "f64") = .error e) ↔
      ((∃ a, T.Int 3 = T.Int a ∧ (Ty.mk "f64").is_int = false) ∨
       (∃ a, T.Int 3 = T.Float a ∧ (Ty.mk "f64").is_float = false) ∨
       (∃ t, T.Int 3 = T.Normal t ∧ t ≠ Ty.mk "f64")) :=
  c6_unify_mismatch_iff Env.empty (T.Int 3) (Ty.mk "f64")
    (fun p hp => absurd hp (List.not_mem_nil p))

/-- C10: a successful `unify` on a placeholder removes every unresolved entry
equal to that placeholder under `T.__eq__`, so an immediately repeated
identical `unify` also succeeds and returns the exact same environment —
every map and every node type slot unchanged. -/
theorem c10_unify_idempotent (env env' : Env) (ty : T) (expected : Ty)
    (hp : ty.isPlaceholder = true) (h : unify env ty expected = .ok env') :
    (∀ p ∈ env'.unresolved, T.eq p.2 ty = false) ∧
    unify env' ty expected = .ok env' := by
  cases ty with
  | Normal u => cases hp
  | Int a =>
    simp only [unify] at h ⊢
    split at h
    · rename_i hint
      have hsub := (unifyGo_scanRel h).unres_sublist
      have hrem : ∀ p ∈ env'.unresolved, T.eq p.2 (T.Int a) = false := by
        intro p hmem
        cases hcc : T.eq p.2 (T.Int a) with
        | false => rfl
        | true =>
          have h1 : dlookup p.1 env'.unresolved = none :=
            unifyGo_removes h p (hsub.subset hmem) hcc
          have h2 := dlookup_isSome_of_mem hmem
          rw [h1] at h2
          cases h2
      refine ⟨hrem, ?_⟩
      rw [if_pos hint]
      exact unifyGo_skip hrem
    · cases h
  | Float a =>
    simp only [unify] at h ⊢
    split at h
    · rename_i hfl
      have hsub := (unifyGo_scanRel h).unres_sublist
      have hrem : ∀ p ∈ env'.unresolved, T.eq p.2 (T.Float a) = false := by
        intro p hmem
        cases hcc : T.eq p.2 (T.Float a) with
        | false => rfl
        | true =>
          have h1 : dlookup p.1 env'.unresolved = none :=
            unifyGo_removes h p (hsub.subset hmem) hcc
          have h2 := dlookup_isSome_of_mem hmem
          rw [h1] at h2
          cases h2
      refine ⟨hrem, ?_⟩
      rw [if_pos hfl]
      exact unifyGo_skip hrem
    · cases h

/-- C10 (witness): the idempotence statement applied to a concrete successful
unification. -/
theorem c10_witness :
    (T.Int 1).isPlaceholder = true ∧
    unify c10Env0 (T.Int 1) (Ty.mk "i32") = .ok c10Env1 ∧
    (∀ p ∈ c10Env1.unresolved, T.eq p.2 (T.Int 1) = false) ∧
    unify c10Env1 (T.Int 1) (Ty.mk "i32") = .ok c10Env1 :=
  ⟨rfl, rfl,
   (c10_unify_idempotent c10Env0 c10Env1 (T.Int 1) (Ty.mk "i32") rfl rfl).1,
   (c10_unify_idempotent c10Env0 c10Env1 (T.Int 1) (Ty.mk "i32") rfl rfl).2⟩

/-- C7: processing the binding `name: ty = init` infers the initializer, then
immediately unifies its inferred type against the annotation — in particular a
placeholder initializer's type slot holds the annotation right after the
statement, independent of later usage — and binds the name to `Resolved(ty)`;
processing `name = init` without an annotation binds the name to the
initializer's (possibly still-placeholder) inferred type. -/
theorem c7_annotated_binding (env env'' : Env) (name : String) (ty : Ty)
    (init : Expr) (hreg : env.regC) :
    (processStmt env (.Binding name (some ty) init) = .ok env'' →
      ∃ env' inf, infer env init = .ok (env', inf) ∧
        unify (env'.add_binding name (T.Normal ty)) inf ty = .ok env'' ∧
        dlookup name env''.bindings = some (T.Normal ty) ∧
        (inf.isPlaceholder = true → dlookup init.node_id env''.tys = some ty)) ∧
    (processStmt env (.Binding name none init) = .ok env'' →
      ∃ env' inf, infer env init = .ok (env', inf) ∧
        env'' = env'.add_binding name inf ∧
        dlookup name env''.bindings = some inf) := by
  constructor
  · intro h
    unfold processStmt at h
    simp only [] at h
    split at h
    · cases h
    · rename_i env' inf h1
      refine ⟨env', inf, h1, h, ?_, ?_⟩
      · exact (unify_scanRel h).bindings_pres name (dlookup_dinsert_self ..)
      · intro hpl
        have hmem : (init.node_id, inf) ∈
            (env'.add_binding name (T.Normal ty)).unresolved :=
          mem_of_dlookup (infer_unres_of_placeholder h1 hpl)
        have hregB : (env'.add_binding name (T.Normal ty)).regC :=
          regC_congr (Eq.refl _) (infer_regC h1 hreg)
        cases inf with
        | Normal u => cases hpl
        | Int a =>
          simp only [unify] at h
          split at h
          · exact unifyGo_writes hregB h _ hmem (T.eq_refl _)
          · cases h
        | Float a =>
          simp only [unify] at h
          split at h
          · exact unifyGo_writes hregB h _ hmem (T.eq_refl _)
          · cases h
  · intro h
    unfold processStmt at h
    simp only [] at h
    split at h
    · cases h
    · rename_i env' inf h1
      cases h
      exact ⟨env', inf, h1, rfl, dlookup_dinsert_self ..⟩

theorem covered_insert_pop {env : Env} {j : Nat} (k : Nat) (c : Ty)
    (h : env.covered j) :
    (Env.pop_unres { env with tys := dinsert k c env.tys } k).covered j := by
  by_cases hjk : j = k
  · subst hjk
    left
    show (dlookup j (dinsert j c env.tys)).isSome = true
    rw [dlookup_dinsert_self]
    rfl
  · rcases h with h | h
    · left
      show (dlookup j (dinsert k c env.tys)).isSome = true
      exact dlookup_isSome_dinsert _ _ h
    · right
      show (dlookup j (derase k env.unresolved)).isSome = true
      rw [dlookup_derase_ne hjk]
      exact h

theorem parenPass_covered {expected : Ty} {env env' : Env} {i : Nat}
    (h : parenPass expected env i = .ok env') {j : Nat} (hc : env.covered j) :
    env'.covered j := by
  unfold parenPass at h
  split at h
  · cases h
    exact hc
  · split at h
    · cases h
    · split at h
      · cases h
        exact covered_insert_pop _ _ (covered_insert_pop _ _ (covered_insert_pop _ _ hc))
      · cases h
        exact covered_insert_pop _ _ hc

theorem bindingPass_covered {expected : Ty} {env : Env} {i j : Nat}
    (hc : env.covered j) : (bindingPass expected env i).covered j := by
  unfold Env.covered at hc ⊢
  rw [bindingPass_tys, bindingPass_unres]
  exact hc

theorem unifyEntry_covered {expected : Ty} {ty : T} {env env' : Env} {p : Nat × T}
    (hreg : env.regC) (h : unifyEntry expected ty env p = .ok env') {j : Nat}
    (hc : env.covered j) : env'.covered j := by
  unfold unifyEntry at h
  split at h
  · split at h
    · cases h
    · split at h
      · cases h
      · cases h
        rename_i iexpr hie hx env1 hpp
        have hnid : iexpr.node_id = p.1 := regC_lookup hreg hie
        have hc1 := parenPass_covered hpp hc
        by_cases hjp : j = p.1
        · subst hjp
          left
          rw [pop_unres_tys, bindingPass_tys]
          show (dlookup p.1 (dinsert iexpr.node_id expected env1.tys)).isSome = true
          rw [hnid]
          exact dlookup_dinsert_self_isSome ..
        · rcases hc1 with hct | hcu
          · left
            rw [pop_unres_tys, bindingPass_tys]
            show (dlookup j (dinsert iexpr.node_id expected env1.tys)).isSome = true
            exact dlookup_isSome_dinsert _ _ hct
          · right
            rw [pop_unres_unres, bindingPass_unres]
            show (dlookup j (derase p.1 env1.unresolved)).isSome = true
            rw [dlookup_derase_ne hjp]
            exact hcu
  · cases h
    exact hc

theorem unifyGo_covered {expected : Ty} {ty : T} {l : List (Nat × T)} :
    ∀ {env env' : Env} {j : Nat}, env.regC → unifyGo expected ty env l = .ok env' →
    env.covered j → env'.covered j := by
  induction l with
  | nil => intro env env' j _ h hc; cases h; exact hc
  | cons p rest ih =>
    intro env env' j hreg h hc
    unfold unifyGo at h
    split at h
    · cases h
    · rename_i env1 hstep
      exact ih (regC_of_scanRel (unifyEntry_scanRel hstep) hreg) h
        (unifyEntry_covered hreg hstep hc)

theorem unify_covered {env env' : Env} {t : T} {c : Ty} (hreg : env.regC)
    (h : unify env t c = .ok env') {j : Nat} (hc : env.covered j) :
    env'.covered j := by
  cases t with
  | Int a =>
    simp only [unify] at h
    split at h
    · exact unifyGo_covered hreg h hc
    · cases h
  | Float a =>
    simp only [unify] at h
    split at h
    · exact unifyGo_covered hreg h hc
    · cases h
  | Normal u =>
    simp only [unify] at h
    split at h
    · cases h
      exact hc
    · cases h

theorem Wf.of_fields {env env' : Env} {S : List Nat}
    (hx : env'.exprs = env.exprs) (hu : env'.unresolved = env.unresolved)
    (ht : env'.tys = env.tys) (h : Wf env S) : Wf env' S := by
  constructor
  · exact regC_congr hx h.reg
  · intro p hp
    rw [hu] at hp
    exact h.placeholders p hp
  · intro p hp
    rw [hu] at hp
    rw [hx]
    exact h.registered p hp
  · rw [show keysOf env'.unresolved = keysOf env.unresolved from by rw [hu]]
    exact h.nodup
  · intro p hp
    rw [hx] at hp
    rcases h.coveredAll p hp with hc | hS
    · left
      unfold Env.covered at hc ⊢
      rw [ht, hu]
      exact hc
    · right
      exact hS

theorem unify_wf {env env' : Env} {t : T} {c : Ty} {S : List Nat}
    (hwf : Wf env S) (h : unify env t c = .ok env') : Wf env' S := by
  have hrel := unify_scanRel h
  constructor
  · exact regC_of_scanRel hrel hwf.reg
  · intro p hp
    exact hwf.placeholders p (hrel.unres_sublist.subset hp)
  · intro p hp
    rw [hrel.exprs_eq]
    exact hwf.registered p (hrel.unres_sublist.subset hp)
  · exact ((hrel.unres_sublist.map Prod.fst).nodup) hwf.nodup
  · intro p hp
    rw [hrel.exprs_eq] at hp
    rcases hwf.coveredAll p hp with hc | hS
    · exact Or.inl (unify_covered hwf.reg h hc)
    · exact Or.inr hS

theorem wf_set_binding_id {env : Env} {S : List Nat} (bid : List (Nat × String))
    (h : Wf env S) : Wf { env with binding_id := bid } S :=
  ⟨h.reg, h.placeholders, h.registered, h.nodup, fun p hp => h.coveredAll p hp⟩

theorem wf_set_paren {env : Env} {S : List Nat} (pe : List (Nat × Nat))
    (h : Wf env S) : Wf { env with paren_exprs := pe } S :=
  ⟨h.reg, h.placeholders, h.registered, h.nodup, fun p hp => h.coveredAll p hp⟩

theorem wf_add_binding {env : Env} {S : List Nat} (x : String) (t : T)
    (h : Wf env S) : Wf (env.add_binding x t) S :=
  ⟨h.reg, h.placeholders, h.registered, h.nodup, fun p hp => h.coveredAll p hp⟩

theorem register_wf {env : Env} {S : List Nat} (e0 : Expr) (hwf : Wf env S) :
    Wf (register env e0) (e0.node_id :: S) := by
  constructor
  · exact regC_register hwf.reg e0
  · exact hwf.placeholders
  · intro p hp
    exact dlookup_isSome_dinsert _ _ (hwf.registered p hp)
  · exact hwf.nodup
  · intro p hp
    rcases mem_dinsert hp with h' | h'
    · subst h'
      exact Or.inr (List.mem_cons_self ..)
    · rcases hwf.coveredAll p h' with hc | hS
      · exact Or.inl hc
      · exact Or.inr (List.mem_cons_of_mem _ hS)

/-- `inferPost` restores full coverage for the node being finished: from an
invariant excusing `e0`'s id, it yields the invariant with `e0`'s id covered. -/
theorem inferPost_wf {env : Env} {S : List Nat} (e0 : Expr) (t : T)
    (hwf : Wf env (e0.node_id :: S))
    (hreg0 : (dlookup e0.node_id env.exprs).isSome = true) :
    Wf (inferPost env e0 t).1 S ∧
    (∀ j, env.covered j → (inferPost env e0 t).1.covered j) ∧
    (inferPost env e0 t).1.exprs = env.exprs := by
  cases t with
  | Normal u =>
    refine ⟨?_, ?_, rfl⟩
    · constructor
      · exact hwf.reg
      · exact hwf.placeholders
      · exact hwf.registered
      · exact hwf.nodup
      · intro p hp
        rcases hwf.coveredAll p hp with hc | hS
        · refine Or.inl ?_
          rcases hc with hct | hcu
          · exact Or.inl (dlookup_isSome_dinsert _ _ hct)
          · exact Or.inr hcu
        · rcases List.mem_cons.mp hS with h' | h'
          · refine Or.inl (Or.inl ?_)
            rw [h']
            show (dlookup e0.node_id (dinsert e0.node_id u env.tys)).isSome = true
            exact dlookup_dinsert_self_isSome ..
          · exact Or.inr h'
    · intro j hc
      rcases hc with hct | hcu
      · exact Or.inl (dlookup_isSome_dinsert _ _ hct)
      · exact Or.inr hcu
  | Int a =>
    refine ⟨?_, ?_, rfl⟩
    · constructor
      · exact hwf.reg
      · intro p hp
        rcases mem_dinsert hp with h' | h'
        · subst h'
          rfl
        · exact hwf.placeholders p h'
      · intro p hp
        rcases mem_dinsert hp with h' | h'
        · subst h'
          exact hreg0
        · exact hwf.registered p h'
      · exact nodup_keysOf_dinsert hwf.nodup
      · intro p hp
        rcases hwf.coveredAll p hp with hc | hS
        · refine Or.inl ?_
          rcases hc with hct | hcu
          · exact Or.inl hct
          · exact Or.inr (dlookup_isSome_dinsert _ _ hcu)
        · rcases List.mem_cons.mp hS with h' | h'
          · refine Or.inl (Or.inr ?_)
            rw [h']
            show (dlookup e0.node_id
              (dinsert e0.node_id (T.Int a) env.unresolved)).isSome = true
            exact dlookup_dinsert_self_isSome ..
          · exact Or.inr h'
    · intro j hc
      rcases hc with hct | hcu
      · exact Or.inl hct
      · exact Or.inr (dlookup_isSome_dinsert _ _ hcu)
  | Float a =>
    refine ⟨?_, ?_, rfl⟩
    · constructor
      · exact hwf.reg
      · intro p hp
        rcases mem_dinsert hp with h' | h'
        · subst h'
          rfl
        · exact hwf.placeholders p h'
      · intro p hp
        rcases mem_dinsert hp with h' | h'
        · subst h'
          exact hreg0
        · exact hwf.registered p h'
      · exact nodup_keysOf_dinsert hwf.nodup
      · intro p hp
        rcases hwf.coveredAll p hp with hc | hS
        · refine Or.inl ?_
          rcases hc with hct | hcu
          · exact Or.inl hct
          · exact Or.inr (dlookup_isSome_dinsert _ _ hcu)
        · rcases List.mem_cons.mp hS with h' | h'
          · refine Or.inl (Or.inr ?_)
            rw [h']
            show (dlookup e0.node_id
              (dinsert e0.node_id (T.Float a) env.unresolved)).isSome = true
            exact dlookup_dinsert_self_isSome ..
          · exact Or.inr h'
    · intro j hc
      rcases hc with hct | hcu
      · exact Or.inl hct
      · exact Or.inr (dlookup_isSome_dinsert _ _ hcu)

/-- `infer` preserves the global invariant, preserves coverage of every node,
and only grows the registry. -/
theorem infer_wf {e : Expr} : ∀ {env : Env} {r : Env × T} {S : List Nat},
    Wf env S → infer env e = .ok r →
    Wf r.1 S ∧ (∀ j, env.covered j → r.1.covered j) ∧
    (∀ j, (dlookup j env.exprs).isSome = true →
      (dlookup j r.1.exprs).isSome = true) := by
  induction e with
  | IntLit nid v =>
    intro env r S hwf h
    cases h
    have hpost := inferPost_wf (.IntLit nid v) (T.Int nid)
      (register_wf (.IntLit nid v) hwf)
      (dlookup_dinsert_self_isSome ..)
    refine ⟨hpost.1, ?_, ?_⟩
    · intro j hc
      exact hpost.2.1 j hc
    · intro j hj
      rw [hpost.2.2]
      exact dlookup_isSome_dinsert _ _ hj
  | FloatLit nid =>
    intro env r S hwf h
    cases h
    have hpost := inferPost_wf (.FloatLit nid) (T.Float nid)
      (register_wf (.FloatLit nid) hwf)
      (dlookup_dinsert_self_isSome ..)
    refine ⟨hpost.1, ?_, ?_⟩
    · intro j hc
      exact hpost.2.1 j hc
    · intro j hj
      rw [hpost.2.2]
      exact dlookup_isSome_dinsert _ _ hj
  | Ident nid name =>
    intro env r S hwf h
    unfold infer at h
    simp only [] at h
    split at h
    · cases h
    · rename_i t0 hfind
      cases h
      have hwfb : Wf
          { register env (.Ident nid name) with
            binding_id := dinsert nid name (register env (.Ident nid name)).binding_id }
          ((Expr.Ident nid name).node_id :: S) :=
        wf_set_binding_id _ (register_wf (.Ident nid name) hwf)
      have hpost := inferPost_wf (.Ident nid name) t0 hwfb
        (dlookup_dinsert_self_isSome ..)
      refine ⟨hpost.1, ?_, ?_⟩
      · intro j hc
        exact hpost.2.1 j hc
      · intro j hj
        rw [hpost.2.2]
        exact dlookup_isSome_dinsert _ _ hj
  | Binary nid l rr ihl ihr =>
    intro env r S hwf h
    unfold infer at h
    simp only [] at h
    split at h
    · cases h
    · rename_i env1 t1 h1
      split at h
      · cases h
      · rename_i env2 t2 h2
        split at h
        · cases h
        · rename_i env3 ty3 h3
          cases h
          have hwfb : Wf
              { register env (.Binary nid l rr) with
                paren_exprs := dinsert rr.node_id nid (dinsert l.node_id nid
                  (register env (.Binary nid l rr)).paren_exprs) }
              ((Expr.Binary nid l rr).node_id :: S) :=
            wf_set_paren _ (register_wf (.Binary nid l rr) hwf)
          obtain ⟨hwf1, hcov1, hex1⟩ := ihl hwfb h1
          obtain ⟨hwf2, hcov2, hex2⟩ := ihr hwf1 h2
          have hwf3 : Wf env3 (nid :: S) := by
            rcases combine_env h3 with heq | ⟨pp, cc, hu⟩
            · exact Wf.of_fields
                (by rw [show env3 = env2 from heq])
                (by rw [show env3 = env2 from heq])
                (by rw [show env3 = env2 from heq]) hwf2
            · exact unify_wf hwf2 hu
          have hcov3 : ∀ j, env2.covered j → env3.covered j := by
            intro j hc
            rcases combine_env h3 with heq | ⟨pp, cc, hu⟩
            · rw [show env3 = env2 from heq]
              exact hc
            · exact unify_covered hwf2.reg hu hc
          have hex3 : env3.exprs = env2.exprs := by
            rcases combine_env h3 with heq | ⟨pp, cc, hu⟩
            · rw [show env3 = env2 from heq]
            · exact (unify_scanRel hu).exprs_eq
          have hreg3 : (dlookup (Expr.Binary nid l rr).node_id env3.exprs).isSome
              = true := by
            rw [hex3]
            refine hex2 _ (hex1 _ ?_)
            exact dlookup_dinsert_self_isSome ..
          have hpost := inferPost_wf (.Binary nid l rr) ty3 hwf3 hreg3
          refine ⟨hpost.1, ?_, ?_⟩
          · intro j hc
            exact hpost.2.1 j (hcov3 j (hcov2 j (hcov1 j hc)))
          · intro j hj
            rw [hpost.2.2, hex3]
            exact hex2 _ (hex1 _ (dlookup_isSome_dinsert _ _ hj))

theorem processStmt_wf {env env' : Env} {s : Stmt} {S : List Nat}
    (hwf : Wf env S) (h : processStmt env s = .ok env') : Wf env' S := by
  cases s with
  | ExprStmt e0 =>
    cases h
    exact hwf
  | Binding name oty init =>
    unfold processStmt at h
    simp only [] at h
    split at h
    · cases h
    · rename_i envA inf hinf
      have hwfA : Wf envA S := (infer_wf hwf hinf).1
      cases oty with
      | none =>
        cases h
        exact wf_add_binding _ _ hwfA
      | some ty =>
        have h2 : unify (envA.add_binding name (T.Normal ty)) inf ty = .ok env' := h
        exact unify_wf (wf_add_binding _ _ hwfA) h2

theorem processStmts_wf {stmts : List Stmt} : ∀ {env env' : Env} {S : List Nat},
    Wf env S → processStmts env stmts = .ok env' → Wf env' S := by
  induction stmts with
  | nil =>
    intro env env' S hwf h
    cases h
    exact hwf
  | cons s rest ih =>
    intro env env' S hwf h
    unfold processStmts at h
    split at h
    · cases h
    · rename_i env1 hs
      exact ih (processStmt_wf hwf hs) h

theorem wf_empty : Wf Env.empty [] := by
  constructor
  · intro p hp
    cases hp
  · intro p hp
    cases hp
  · intro p hp
    cases hp
  · exact List.nodup_nil
  · intro p hp
    cases hp

theorem infer_types_wf {fn : Fn} {env' : Env}
    (h : infer_types fn Env.empty = .ok env') : Wf env' [] := by
  unfold infer_types at h
  split at h
  · cases h
  · rename_i env1 hstmts
    have hwf1 : Wf env1 [] := processStmts_wf wf_empty hstmts
    split at h
    · cases h
      exact hwf1
    · rename_i e0
      split at h
      · cases h
      · rename_i env2 ty2 hinf
        exact unify_wf (infer_wf hwf1 hinf).1 h

theorem resolveAllGo_ok {l : List (Nat × T)} : ∀ (env : Env), env.regC →
    (∀ p ∈ l, T.isPlaceholder p.2 = true ∧ (dlookup p.1 env.exprs).isSome = true) →
    (keysOf l).Nodup →
    ∃ env'', resolveAllGo env l = .ok env'' ∧
      (∀ p ∈ l, dlookup p.1 env''.tys = some (defaultTy p.2)) ∧
      (∀ j, (dlookup j env.tys).isSome = true → (dlookup j env''.tys).isSome = true) ∧
      env''.exprs = env.exprs ∧
      (∀ j, ¬ j ∈ keysOf l → dlookup j env''.tys = dlookup j env.tys) := by
  induction l with
  | nil =>
    intro env _ _ _
    exact ⟨env, rfl, fun p hp => absurd hp (List.not_mem_nil p), fun _ h => h, rfl,
      fun _ _ => rfl⟩
  | cons p rest ih =>
    intro env hreg hents hnodup
    obtain ⟨hpl, hsome⟩ := hents p (List.mem_cons_self ..)
    obtain ⟨e0, he0⟩ := Option.isSome_iff_exists.mp hsome
    have hnid : e0.node_id = p.1 := regC_lookup hreg he0
    have hstep0 : resolve env p.1 p.2 =
        .ok { env with tys := dinsert e0.node_id (defaultTy p.2) env.tys } := by
      cases hp2 : p.2 with
      | Normal u =>
        rw [hp2] at hpl
        cases hpl
      | Int a =>
        simp only [resolve]
        rw [he0]
        rfl
      | Float a =>
        simp only [resolve]
        rw [he0]
        rfl
    have hstep : resolve env p.1 p.2 =
        .ok { env with tys := dinsert p.1 (defaultTy p.2) env.tys } := by
      rw [hnid] at hstep0
      exact hstep0
    have hndc := hnodup
    simp only [keysOf, List.map_cons, List.nodup_cons] at hndc
    have hnodup' : (keysOf rest).Nodup := hndc.2
    have hhead : ¬ p.1 ∈ keysOf rest := hndc.1
    obtain ⟨env'', hgo, hwr, hmono, hexprs, huntouched⟩ := ih
      { env with tys := dinsert p.1 (defaultTy p.2) env.tys }
      (regC_congr (Eq.refl _) hreg)
      (by intro q hq
          obtain ⟨hq1, hq2⟩ := hents q (List.mem_cons_of_mem _ hq)
          exact ⟨hq1, hq2⟩)
      hnodup'
    refine ⟨env'', ?_, ?_, ?_, ?_, ?_⟩
    · unfold resolveAllGo
      rw [hstep]
      exact hgo
    · intro q hq
      rcases List.mem_cons.mp hq with h' | h'
      · subst h'
        rw [huntouched q.1 hhead]
        exact dlookup_dinsert_self ..
      · exact hwr q h'
    · intro j hj
      exact hmono j (dlookup_isSome_dinsert _ _ hj)
    · exact hexprs
    · intro j hj
      have hj1 : ¬ j ∈ keysOf rest := by
        intro hc
        exact hj (by simp [keysOf, List.mem_cons]; right; simpa [keysOf] using hc)
      have hj2 : j ≠ p.1 := by
        intro hc
        exact hj (by simp [keysOf, hc])
      rw [huntouched j hj1]
      show dlookup j (dinsert p.1 (defaultTy p.2) env.tys) = dlookup j env.tys
      exact dlookup_dinsert_ne hj2 _ _

/-- C8: after a successful inference pass over any function, invoking the
defaulting pass once on every entry remaining in the unresolved set succeeds,
leaves every expression node reached by inference with a non-empty concrete
type slot, and writes the default `i64` into every integer-class placeholder
never pinned by an explicit constraint (empty slot) and `f64` into every such
float-class placeholder. -/
theorem c8_defaulting (fn : Fn) (env' : Env)
    (h : infer_types fn Env.empty = .ok env') :
    ∃ env'', resolveAll env' = .ok env'' ∧
      (∀ p ∈ env'.exprs, (dlookup p.1 env''.tys).isSome = true) ∧
      (∀ i a, (i, T.Int a) ∈ env'.unresolved → dlookup i env'.tys = none →
        dlookup i env''.tys = some (Ty.mk "i64")) ∧
      (∀ i a, (i, T.Float a) ∈ env'.unresolved → dlookup i env'.tys = none →
        dlookup i env''.tys = some (Ty.mk "f64")) := by
  have hwf : Wf env' [] := infer_types_wf h
  obtain ⟨env'', hgo, hwrites, hmono, hexprs, huntouched⟩ :=
    resolveAllGo_ok (l := env'.unresolved) env' hwf.reg
      (fun p hp => ⟨hwf.placeholders p hp, hwf.registered p hp⟩) hwf.nodup
  refine ⟨env'', hgo, ?_, ?_, ?_⟩
  · intro p hp
    rcases hwf.coveredAll p hp with hc | hS
    · rcases hc with ht | hu
      · exact hmono _ ht
      · obtain ⟨v, hv⟩ := Option.isSome_iff_exists.mp hu
        have hmem := mem_of_dlookup hv
        rw [hwrites (p.1, v) hmem]
        rfl
    · cases hS
  · intro i a hmem _
    exact hwrites (i, T.Int a) hmem
  · intro i a hmem _
    exact hwrites (i, T.Float a) hmem

/-- C8 (witness): the defaulting statement applied to `c8Fn`, whose unresolved
set still holds `d`'s float placeholder. -/
theorem c8_witness :
    infer_types c8Fn Env.empty = .ok c8Env ∧
    (∃ env'', resolveAll c8Env = .ok env'' ∧
      (∀ p ∈ c8Env.exprs, (dlookup p.1 env''.tys).isSome = true) ∧
      (∀ i a, (i, T.Int a) ∈ c8Env.unresolved → dlookup i c8Env.tys = none →
        dlookup i env''.tys = some (Ty.mk "i64")) ∧
      (∀ i a, (i, T.Float a) ∈ c8Env.unresolved → dlookup i c8Env.tys = none →
        dlookup i env''.tys = some (Ty.mk "f64"))) :=
  ⟨rfl, c8_defaulting c8Fn c8Env rfl⟩

theorem infer_ident_eq {env : Env} {k : Nat} {prev : String} {t : T}
    (hfind : env.find_ty prev = some t) (hp : t.isPlaceholder = true) :
    infer env (.Ident k prev) = .ok
      ({ env with exprs := dinsert k (.Ident k prev) env.exprs,
                  binding_id := dinsert k prev env.binding_id,
                  unresolved := dinsert k t env.unresolved }, t) := by
  unfold infer
  simp only []
  rw [show Env.find_ty
      { register env (.Ident k prev) with
        binding_id := dinsert k prev (register env (.Ident k prev)).binding_id }
      prev = env.find_ty prev from rfl, hfind]
  cases t with
  | Normal u => cases hp
  | Int a => rfl
  | Float a => rfl

theorem ident_step {env : Env} {k : Nat} {prev x : String}
    (hfind : env.find_ty prev = some (T.Int 0)) :
    processStmt env (.Binding x none (.Ident k prev)) =
      .ok (identStepEnv env k prev x) := by
  unfold processStmt
  simp only []
  rw [infer_ident_eq hfind rfl]
  rfl

theorem processStmts_cons_ok {env env1 : Env} {s : Stmt} {rest : List Stmt}
    (h : processStmt env s = .ok env1) :
    processStmts env (s :: rest) = processStmts env1 rest := by
  show (match processStmt env s with
    | .error e => Except.error e
    | .ok env => processStmts env rest) = processStmts env1 rest
  rw [h]

theorem mem_idList {i : Nat} {t : T} {k : Nat} :
    (i, t) ∈ idList k ↔ i < k ∧ t = T.Int 0 := by
  simp only [idList, List.mem_map, List.mem_range, Prod.mk.injEq]
  constructor
  · rintro ⟨a, ha, rfl, rfl⟩
    exact ⟨ha, rfl⟩
  · rintro ⟨hi, rfl⟩
    exact ⟨i, hi, rfl, rfl⟩

theorem idList_dinsert (k : Nat) :
    dinsert k (T.Int 0) (idList k) = idList (k + 1) := by
  have h : ∀ p ∈ idList k, p.1 ≠ k := by
    intro p hp
    cases p with
    | mk a b =>
      have := (mem_idList.mp hp).1
      exact fun hh => absurd (hh ▸ this) (lt_irrefl k)
  rw [dinsert_append h, idList, idList, List.range_succ, List.map_append]
  rfl

/-- Invariant of processing the alias tail: the last name stays bound to the
literal's placeholder, no binary parents exist, the unresolved set is exactly
`idList`, and every chain node is registered consistently. -/
theorem aliasTail_state (xs : List String) :
    ∀ (prev : String) (k : Nat) (env : Env),
    env.find_ty prev = some (T.Int 0) →
    env.paren_exprs = [] →
    env.unresolved = idList k →
    (∀ i, i < k → (dlookup i env.exprs).isSome = true) →
    env.regC →
    ∃ env', processStmts env (aliasTail prev xs k) = .ok env' ∧
      env'.find_ty (lastName prev xs) = some (T.Int 0) ∧
      env'.paren_exprs = [] ∧
      env'.unresolved = idList (k + xs.length) ∧
      (∀ i, i < k + xs.length → (dlookup i env'.exprs).isSome = true) ∧
      env'.regC := by
  induction xs with
  | nil =>
    intro prev k env h1 h2 h3 h4 h5
    exact ⟨env, rfl, h1, h2, by simpa using h3, by simpa using h4, h5⟩
  | cons x xs ih =>
    intro prev k env h1 h2 h3 h4 h5
    have hstep := ident_step (x := x) (k := k) h1
    have hrec := ih x (k + 1) (identStepEnv env k prev x)
      (dlookup_dinsert_self ..)
      h2
      (by show dinsert k (T.Int 0) env.unresolved = idList (k + 1)
          rw [h3, idList_dinsert])
      (by intro i hi
          show (dlookup i (dinsert k (.Ident k prev) env.exprs)).isSome = true
          rcases Nat.lt_succ_iff_lt_or_eq.mp hi with hlt | heq
          · exact dlookup_isSome_dinsert _ _ (h4 i hlt)
          · subst heq
            rw [dlookup_dinsert_self]
            rfl)
      (by intro p hp
          rcases mem_dinsert hp with h' | h'
          · rw [h']
            rfl
          · exact h5 p h')
    obtain ⟨env', hgo, hb1, hb2, hb3, hb4, hb5⟩ := hrec
    refine ⟨env', ?_, hb1, hb2, ?_, ?_, hb5⟩
    · rw [show aliasTail prev (x :: xs) k =
        Stmt.Binding x none (Expr.Ident k prev) :: aliasTail x xs (k + 1) from rfl,
        processStmts_cons_ok hstep]
      exact hgo
    · rw [hb3]
      congr 1
      simp only [List.length_cons]
      omega
    · intro i hi
      simp only [List.length_cons] at hi
      refine hb4 i ?_
      omega

/-- C1: for any alias chain `x0 = <int literal>; x1 = x0; …; xn = x_{n-1}`
with trailing expression `xn`, the single unification of the trailing
expression's inference type against the concrete integer return type `C`
writes `C` into the type slot of the literal node and of every binding's
initializer node. -/
theorem c1_alias_chain (x0 : String) (xs : List String) (C : Ty)
    (hint : C.is_int = true) :
    ∃ env', infer_types (chainFn x0 xs C) Env.empty = .ok env' ∧
      ∀ i, i ≤ xs.length → dlookup i env'.tys = some C := by
  have hstep1 : processStmt Env.empty (.Binding x0 none (.IntLit 0 20)) =
      .ok ⟨[(x0, T.Int 0)], [], [(0, T.Int 0)], [(0, .IntLit 0 20)], [], []⟩ := rfl
  obtain ⟨env2, hgo, hb1, hb2, hb3, hb4, hb5⟩ := aliasTail_state xs x0 1
    ⟨[(x0, T.Int 0)], [], [(0, T.Int 0)], [(0, .IntLit 0 20)], [], []⟩
    (dlookup_dinsert_self x0 (T.Int 0) [])
    rfl
    rfl
    (by intro i hi
        interval_cases i
        rfl)
    (by intro p hp
        rcases List.mem_cons.mp hp with h' | h'
        · rw [h']
          rfl
        · cases h')
  have hident : infer env2 (.Ident (xs.length + 1) (lastName x0 xs)) = .ok
      ({ env2 with
          exprs := dinsert (xs.length + 1) (.Ident (xs.length + 1) (lastName x0 xs))
            env2.exprs,
          binding_id := dinsert (xs.length + 1) (lastName x0 xs) env2.binding_id,
          unresolved := dinsert (xs.length + 1) (T.Int 0) env2.unresolved },
        T.Int 0) := infer_ident_eq hb1 rfl
  set env3 : Env :=
    { env2 with
        exprs := dinsert (xs.length + 1) (.Ident (xs.length + 1) (lastName x0 xs))
          env2.exprs,
        binding_id := dinsert (xs.length + 1) (lastName x0 xs) env2.binding_id,
        unresolved := dinsert (xs.length + 1) (T.Int 0) env2.unresolved } with henv3
  have henv3unres : env3.unresolved = idList (xs.length + 2) := by
    rw [henv3]
    show dinsert (xs.length + 1) (T.Int 0) env2.unresolved = _
    rw [hb3, show 1 + xs.length = xs.length + 1 from by omega, idList_dinsert]
  have henv3exprs : ∀ i, i < xs.length + 2 → (dlookup i env3.exprs).isSome = true := by
    intro i hi
    rw [henv3]
    show (dlookup i (dinsert (xs.length + 1) _ env2.exprs)).isSome = true
    rcases Nat.lt_succ_iff_lt_or_eq.mp hi with hlt | heq
    · exact dlookup_isSome_dinsert _ _ (hb4 i (by omega))
    · subst heq
      rw [dlookup_dinsert_self]
      rfl
  have henv3reg : env3.regC := by
    intro p hp
    rw [henv3] at hp
    rcases mem_dinsert hp with h' | h'
    · rw [h']
      rfl
    · exact hb5 p h'
  obtain ⟨env4, hscan⟩ := unifyGo_ok_of C (T.Int 0)
    (l := env3.unresolved) env3
    (by intro p hp
        rw [henv3unres] at hp
        have hi := (mem_idList.mp hp).1
        refine ⟨henv3exprs p.1 hi, ?_⟩
        intro q hq
        rw [show env3.paren_exprs = [] from hb2] at hq
        cases hq)
  have hunify : unify env3 (T.Int 0) C = .ok env4 := by
    simp only [unify]
    rw [if_pos hint]
    exact hscan
  refine ⟨env4, ?_, ?_⟩
  · show infer_types (chainFn x0 xs C) Env.empty = .ok env4
    unfold infer_types
    simp only [chainFn]
    rw [processStmts_cons_ok hstep1, hgo]
    simp only []
    rw [hident]
    exact hunify
  · intro i hi
    refine unifyGo_writes henv3reg hscan (i, T.Int 0) ?_ (T.eq_refl _)
    rw [henv3unres]
    exact mem_idList.mpr ⟨by omega, rfl⟩

/-- C1 (witness): the chain statement applied to the concrete chain
`a = 20; b = a; c = b` against return type `i32`. -/
theorem c1_witness :
    (Ty.mk "i32").is_int = true ∧
    ∃ env', infer_types (chainFn "a" ["b", "c"] (Ty.mk "i32")) Env.empty = .ok env' ∧
      ∀ i, i ≤ 2 → dlookup i env'.tys = some (Ty.mk "i32") :=
  ⟨rfl, c1_alias_chain "a" ["b", "c"] (Ty.mk "i32") rfl⟩

/-- C7 (witness): the annotated branch applied to `a: i32 = 20` starting from
the empty environment. -/
theorem c7_witness :
    processStmt Env.empty (.Binding "a" (some (Ty.mk "i32")) (.IntLit 1 20)) =
      .ok c7Env ∧
    (∃ env' inf, infer Env.empty (.IntLit 1 20) = .ok (env', inf) ∧
      unify (env'.add_binding "a" (T.Normal (Ty.mk "i32"))) inf (Ty.mk "i32") =
        .ok c7Env ∧
      dlookup "a" c7Env.bindings = some (T.Normal (Ty.mk "i32")) ∧
      (inf.isPlaceholder = true →
        dlookup (Expr.node_id (.IntLit 1 20)) c7Env.tys = some (Ty.mk "i32"))) :=
  ⟨rfl, (c7_annotated_binding Env.empty c7Env "a" (Ty.mk "i32") (.IntLit 1 20)
    (fun p hp => absurd hp (List.not_mem_nil p))).1 rfl⟩

end TypeInference
